import Mathlib

/-!
# Verification of the `regex_engine` repository

Shallow embedding of the Rust sources `src/lib.rs`, `src/thompson.rs` and
`src/glushkov.rs` of the `regex_engine` crate, together with proofs and
refutations of the specification claims.

Modelling conventions:

* Rust `&str` / `String` values are modelled as `List Char` (the engine only
  ever exercises single-code-point characters, and all concrete inputs in
  this development are ASCII, where Rust's byte indices coincide with
  character indices).
* Rust `HashMap` values are modelled as association lists with
  insert-overwrites semantics; iteration, where the Rust iteration order is
  unspecified, is fixed to a canonical (insertion or ascending) order.  Every
  statement proved below is insensitive to that choice, and every concrete
  counterexample uses maps that are small enough that all iteration orders
  coincide on the observable result.
* Rust `HashSet<u32>` values are modelled as sorted duplicate-free
  `List Nat`.
* Rust panics (`panic!`, `expect`, `unwrap` on `None`, index underflow) are
  modelled by `Option`, the `none` value marking the aborted computation.
* `while` loops whose termination relies on a finiteness argument
  (ε-closure, subset construction, partition refinement) are modelled with
  explicit fuel that provably dominates the Rust loop's iteration count; the
  functions return `none` if the fuel were ever to run out.
-/

namespace RegexEngine

/-- Rust strings, modelled as lists of characters. -/
abbrev Str := List Char

/-! ## Association-list model of `HashMap` -/

/-- `HashMap::get`. -/
def alGet {κ ν : Type} [DecidableEq κ] : List (κ × ν) → κ → Option ν
  | [], _ => none
  | (k, v) :: rest, key => if k = key then some v else alGet rest key

/-- `HashMap::insert` (overwrites an existing binding in place, appends a new
binding at the end). -/
def alInsert {κ ν : Type} [DecidableEq κ] : List (κ × ν) → κ → ν → List (κ × ν)
  | [], key, val => [(key, val)]
  | (k, v) :: rest, key, val =>
    if k = key then (key, val) :: rest else (k, v) :: alInsert rest key val

/-- `map.entry(key).or_default().push (val)` on a `HashMap<_, Vec<u32>>`. -/
def alPush {κ : Type} [DecidableEq κ] (m : List (κ × List Nat)) (key : κ) (val : Nat) :
    List (κ × List Nat) :=
  match alGet m key with
  | some vs => alInsert m key (vs ++ [val])
  | none => alInsert m key [val]

/-! ## Sorted-list model of `HashSet<u32>` -/

/-- Insert into a sorted duplicate-free list. -/
def setInsert (x : Nat) : List Nat → List Nat
  | [] => [x]
  | y :: rest =>
    if x < y then x :: y :: rest
    else if x = y then y :: rest
    else y :: setInsert x rest

/-- Union of state sets. -/
def setUnion (base : List Nat) (extra : List Nat) : List Nat :=
  extra.foldl (fun acc x => setInsert x acc) base

/-! ## The shared DFA interface (trait `Dfa` in `lib.rs`)

The Rust trait stores `transitions : HashMap<(u32, char), u32>` and
`accepting_states : HashSet<u32>`; getters/setters are elided.
-/

structure Dfa where
  transitions : List ((Nat × Char) × Nat)
  accepting_states : List Nat
  deriving Repr, DecidableEq

/-- A single table lookup `self.get_transitions().get(&(state, c))`. -/
def Dfa.step (d : Dfa) (q : Nat) (c : Char) : Option Nat :=
  alGet d.transitions (q, c)

/-- `self.get_accepting_states().contains(&q)`. -/
def Dfa.isAccepting (d : Dfa) (q : Nat) : Bool :=
  d.accepting_states.contains q

/-- The loop body of `Dfa::process` (`lib.rs` lines 173-183): consume the
input; a missing transition returns `false` immediately; at the end test
acceptance of the current state. -/
def processFrom (d : Dfa) (q : Nat) : Str → Bool
  | [] => d.isAccepting q
  | c :: cs =>
    match d.step q c with
    | some q' => processFrom d q' cs
    | none => false

/-- `Dfa::process`: whole-string (anchored) matching from state 0. -/
def Dfa.process (d : Dfa) (input : Str) : Bool :=
  processFrom d 0 input

/-- The inner `for (i, c) in text.chars().enumerate().skip(start_pos)` loop
shared by `find_first_match` and `find_all_matches` (`lib.rs` lines 192-203
and 224-235).  `cs` is the remaining input, `i` the index of its first
character, `q` the current DFA state; `mStart`/`mEnd` mirror
`match_start`/`match_end`.  In `find_first_match` the new start is
`match_start.or(Some(i))` and in `find_all_matches` it is
`match_start.or(Some(start_pos))`; both assignments first fire at the very
first loop iteration, where `i == start_pos`, so a single loop models both. -/
def matchLoop (d : Dfa) : Str → Nat → Nat → Option Nat → Option Nat →
    Option Nat × Option Nat
  | [], _, _, mStart, mEnd => (mStart, mEnd)
  | c :: cs, q, i, mStart, mEnd =>
    match d.step q c with
    | none => (mStart, mEnd)
    | some q' =>
      matchLoop d cs q' (i + 1) (mStart.or (some i))
        (if d.isAccepting q' then some i else mEnd)

/-- `slice s i j` models the Rust byte slice `&s[i..=j]` (character level). -/
def slice (s : Str) (i j : Nat) : Str :=
  (s.drop i).take (j + 1 - i)

/-- The outer `while start_pos < text.len()` loop of
`Dfa::find_first_match` (`lib.rs` lines 185-213), returning the span
`(match_start, match_end)` of the first match. -/
def findFrom (d : Dfa) (s : Str) (startPos : Nat) : Option (Nat × Nat) :=
  if _h : startPos < s.length then
    match matchLoop d (s.drop startPos) 0 startPos none none with
    | (some st, some e) => some (st, e)
    | _ => findFrom d s (startPos + 1)
  else none
termination_by s.length - startPos

/-- `Dfa::find_first_match`. -/
def find_first_match (d : Dfa) (s : Str) : Option Str :=
  (findFrom d s 0).map fun p => slice s p.1 p.2

/-- The outer loop of `Dfa::find_all_matches` (`lib.rs` lines 215-246),
returning the spans of all matches; after a match `(start, end)` the next
scan starts at `end + 1`. -/
def findAllFrom (d : Dfa) (s : Str) (startPos : Nat) : List (Nat × Nat) :=
  if _h : startPos < s.length then
    match hm : matchLoop d (s.drop startPos) 0 startPos none none with
    | (some st, some e) => (st, e) :: findAllFrom d s (e + 1)
    | _ => findAllFrom d s (startPos + 1)
  else []
termination_by s.length - startPos
decreasing_by
  · -- the recorded `match_end` never precedes the scan's start position
    have key : ∀ (cs : Str) (q i : Nat) (mS mE : Option Nat) (e : Nat),
        (matchLoop d cs q i mS mE).2 = some e → mE = some e ∨ i ≤ e := by
      intro cs
      induction cs with
      | nil => intro q i mS mE e h; exact Or.inl h
      | cons c rest ih =>
        intro q i mS mE e h
        simp only [matchLoop] at h
        cases hstep : d.step q c with
        | none => rw [hstep] at h; exact Or.inl h
        | some q' =>
          rw [hstep] at h
          rcases ih q' (i + 1) _ _ e h with h' | h'
          · by_cases hacc : d.isAccepting q'
            · simp [hacc] at h'
              exact Or.inr (h' ▸ Nat.le_refl i)
            · simp [hacc] at h'
              exact Or.inl h'
          · exact Or.inr (Nat.le_of_succ_le h')
    have h2 : startPos ≤ e := by
      rcases key _ _ _ _ _ _ (by rw [hm]) with h' | h'
      · exact absurd h' (by simp)
      · exact h'
    omega
  · omega

/-- `Dfa::find_all_matches`. -/
def find_all_matches (d : Dfa) (s : Str) : List Str :=
  (findAllFrom d s 0).map fun p => slice s p.1 p.2

/-! ## The validator `is_valid_regex` (`lib.rs` lines 342-387)

State of the scan: `openCount` models `open_paren_count`, `lwq` models
`last_was_quantifier` (initially `true`).  The `\\` arm peeks and consumes
the escaped character.  Note that `lib.rs` has no `'|'` arm: `|` falls into
the catch-all and merely clears `lwq`.
-/

def validLoop : Nat → Bool → Str → Bool
  | openCount, _, [] => openCount == 0
  | openCount, lwq, c :: rest =>
    if c = '(' then validLoop (openCount + 1) true rest
    else if c = ')' then
      if openCount = 0 then false else validLoop (openCount - 1) false rest
    else if c = '*' ∨ c = '+' then
      if lwq then false else validLoop openCount true rest
    else if c = '\\' then
      match rest with
      | [] => false
      | _ :: rest' => validLoop openCount false rest'
    else validLoop openCount false rest

/-- `is_valid_regex`. -/
def is_valid_regex (regex : Str) : Bool :=
  if regex = [] then false else validLoop 0 true regex

/-! ## The desugarer `normalise_regex` (`lib.rs` lines 389-470) -/

/-- The alternation branches of the expansion of `.` in `normalise_regex`:
all lowercase then uppercase letters, digits, and the ASCII specials in
source order, with `(`, `)`, `*`, `+` and `\` escape-protected.  Character
codes are used for the quote (34), apostrophe (39), backtick (96) and
braces (123/125). -/
def dotAtoms : List Str :=
  (List.range 26).map (fun k => [Char.ofNat (97 + k)]) ++
  (List.range 26).map (fun k => [Char.ofNat (65 + k)]) ++
  (List.range 10).map (fun k => [Char.ofNat (48 + k)]) ++
  [[' '], ['!'], [Char.ofNat 34], ['#'], ['$'], ['%'], ['&'], [Char.ofNat 39],
   ['\\', '('], ['\\', ')'], ['\\', '*'], ['\\', '+'], [','], ['-'], ['.'],
   ['/'], [':'], [';'], ['<'], ['='], ['>'], ['?'], ['@'], ['['],
   ['\\', '\\'], [']'], ['^'], ['_'], [Char.ofNat 96], [Char.ofNat 123],
   [Char.ofNat 125], ['~']]

/-- The full `(a|b|...|~)` string pushed for `.`. -/
def dotExpansion : Str :=
  '(' :: (List.intercalate ['|'] dotAtoms) ++ [')']

/-- The backwards scan of the `')' => { ... }` arm of the `'+'` case:
`for j in (0..normalised.len()).rev()` tracking a balance, returning
`group_start` (0 when the loop finishes without a break, as in the Rust
initialisation). -/
def groupStartLoop (s : Str) : Nat → Int → Nat
  | 0, _ => 0
  | j + 1, balance =>
    let ch := s.getD j (Char.ofNat 0)
    if ch = ')' then groupStartLoop s j (balance + 1)
    else if ch = '(' then
      if balance - 1 = 0 then j else groupStartLoop s j (balance - 1)
    else groupStartLoop s j balance

/-- The backwards scan of the `')' => { ... }` arm of the `'?'` case:
insert `'('` at the position of the matching opening parenthesis. -/
def insertOpenParen (s : Str) : Nat → Int → Str
  | 0, _ => s
  | j + 1, balance =>
    let ch := s.getD j (Char.ofNat 0)
    if ch = ')' then insertOpenParen s j (balance + 1)
    else if ch = '(' then
      if balance - 1 = 0 then s.take j ++ '(' :: s.drop j
      else insertOpenParen s j (balance - 1)
    else insertOpenParen s j balance

/-- The mutable locals of `normalise_regex`: the output built so far, the
`escape_sequence` flag and `prev_char` (initially `'\0'`). -/
structure NormState where
  out : Str
  escape : Bool
  prev : Char
  deriving Repr, DecidableEq

/-- One iteration of the `for curr_char in regex.chars()` loop of
`normalise_regex`.  Returns `none` for the one aborting path: `?` after a
non-`)` with an empty output, where Rust evaluates `normalised.len() - 1`
on `0usize`. -/
def normStep (st : NormState) (c : Char) : Option NormState :=
  if st.escape then some { out := st.out ++ [c], escape := false, prev := c }
  else if c = '\\' then some { st with out := st.out ++ ['\\'], escape := true }
  else if c = '+' then
    if st.prev = ')' then
      let gs := groupStartLoop st.out st.out.length 0
      some { out := st.out ++ st.out.drop gs ++ ['*'], escape := false, prev := '*' }
    else
      some { out := st.out ++ [st.prev, '*'], escape := false, prev := '*' }
  else if c = '?' then
    if st.prev = ')' then
      some { out := insertOpenParen st.out st.out.length 0 ++ ['|', ')'],
             escape := false, prev := ')' }
    else
      match st.out.length with
      | 0 => none
      | n + 1 =>
        some { out := st.out.take n ++ '(' :: st.out.drop n ++ ['|', ')'],
               escape := false, prev := ')' }
  else if c = '.' then
    some { out := st.out ++ dotExpansion, escape := false, prev := ')' }
  else
    some { out := st.out ++ [c], escape := false, prev := c }

/-- The loop of `normalise_regex` threaded over the input. -/
def normLoop (st : NormState) : Str → Option NormState
  | [] => some st
  | c :: rest =>
    match normStep st c with
    | some st' => normLoop st' rest
    | none => none

/-- `normalise_regex`. -/
def normalise_regex (regex : Str) : Option Str :=
  (normLoop { out := [], escape := false, prev := Char.ofNat 0 } regex).map
    NormState.out

/-! ## Thompson construction (`thompson.rs`)

The ε-NFA: `transitions : HashMap<(u32, Option<char>), Vec<u32>>` plus the
single accepting state. -/

structure Nfa where
  transitions : List ((Nat × Option Char) × List Nat)
  accepting_state : Nat
  deriving Repr, DecidableEq

/-- `create_basic_nfa`. -/
def create_basic_nfa (letter : Char) : Nfa :=
  { transitions := [((0, some letter), [1])], accepting_state := 1 }

/-- `create_basic_epsilon_nfa`. -/
def create_basic_epsilon_nfa : Nfa :=
  { transitions := [((0, none), [1])], accepting_state := 1 }

/-- Shift all states of a transition table by `off`, inserting into `acc`
(the Rust loops iterate the source map and `insert` into the target map). -/
def shiftInsert (acc : List ((Nat × Option Char) × List Nat)) (off : Nat)
    (src : List ((Nat × Option Char) × List Nat)) :
    List ((Nat × Option Char) × List Nat) :=
  src.foldl
    (fun m e => alInsert m (e.1.1 + off, e.1.2) (e.2.map (· + off))) acc

/-- `concatenate(left, right)`: `right` is shifted so that its start
coincides with `left`'s accepting state. -/
def concatenate (left right : Nfa) : Nfa :=
  { transitions := shiftInsert left.transitions left.accepting_state
      right.transitions,
    accepting_state := right.accepting_state + left.accepting_state }

/-- `union(left, right)`: fresh start 0 with ε to both shifted starts, fresh
accepting state receiving ε from both shifted accepting states. -/
def union (left right : Nfa) : Nfa :=
  let nL := left.accepting_state
  let nR := right.accepting_state
  let t0 := shiftInsert [] 1 left.transitions
  let t1 := shiftInsert t0 (nL + 2) right.transitions
  let newAcc := nL + nR + 3
  let t2 := alInsert t1 (0, none) [1, nL + 2]
  let t3 := alPush t2 (left.accepting_state + 1, none) newAcc
  let t4 := alPush t3 (right.accepting_state + nL + 2, none) newAcc
  { transitions := t4, accepting_state := newAcc }

/-- `apply_kleene_star(last_nfa)`. -/
def apply_kleene_star (last : Nfa) : Nfa :=
  let newAcc := last.accepting_state + 2
  let t0 := alInsert [] (0, (none : Option Char)) [1]
  let t1 := shiftInsert t0 1 last.transitions
  let t2 := alPush t1 (last.accepting_state + 1, none) 1
  let t3 := alPush t2 (last.accepting_state + 1, none) newAcc
  let t4 := alPush t3 (0, none) newAcc
  { transitions := t4, accepting_state := newAcc }

/-- `apply_operator`: pop two NFAs and combine (`|` union, `.` concat);
`none` models the `expect`/`unreachable!` aborts. -/
def applyOperator (stack : List Nfa) (op : Char) : Option (List Nfa) :=
  if op = '|' then
    match stack with
    | r :: l :: rest => some (union l r :: rest)
    | _ => none
  else if op = '.' then
    match stack with
    | r :: l :: rest => some (concatenate l r :: rest)
    | _ => none
  else none

/-- The `')'` arm: pop operators (list head = stack top) until the matching
`'('` is removed, applying each operator. -/
def popUntilParen : List Char → List Nfa → Option (List Char × List Nfa)
  | [], stack => some ([], stack)
  | op :: rest, stack =>
    if op = '(' then some (rest, stack)
    else
      match applyOperator stack op with
      | some stack' => popUntilParen rest stack'
      | none => none

/-- The `'|'` arm: apply pending concatenations down to the nearest `'('`
or `'|'`. -/
def popConcats : List Char → List Nfa → Option (List Char × List Nfa)
  | [], stack => some ([], stack)
  | op :: rest, stack =>
    if op = '(' ∨ op = '|' then some (op :: rest, stack)
    else
      match applyOperator stack op with
      | some stack' => popConcats rest stack'
      | none => none

/-- Final drain: apply all remaining operators; a leftover `'('` aborts
(`panic!("Unmatched opening parenthesis")`). -/
def drainOps : List Char → List Nfa → Option (List Nfa)
  | [], stack => some stack
  | op :: rest, stack =>
    if op = '(' then none
    else
      match applyOperator stack op with
      | some stack' => drainOps rest stack'
      | none => none

/-- The mutable locals of `thompson_construction`. -/
structure TState where
  operators : List Char
  stack : List Nfa
  concatFlag : Bool
  escape : Bool
  deriving Repr

/-- One iteration of the `for symbol in normalised_regex.chars()` loop of
`thompson_construction` (`thompson.rs` lines 67-141). -/
def thompsonStep (st : TState) (symbol : Char) : Option TState :=
  if st.escape then
    some { operators := if st.concatFlag then '.' :: st.operators else st.operators,
           stack := create_basic_nfa symbol :: st.stack,
           concatFlag := true, escape := false }
  else if symbol = '(' then
    some { st with
           operators :=
             '(' :: (if st.concatFlag then '.' :: st.operators else st.operators),
           concatFlag := false }
  else if symbol = ')' then
    let stack0 := if st.concatFlag then st.stack
                  else create_basic_epsilon_nfa :: st.stack
    match popUntilParen st.operators stack0 with
    | some (ops', stack') =>
      let stack'' := if stack' = [] then [create_basic_epsilon_nfa] else stack'
      some { st with operators := ops', stack := stack'', concatFlag := true }
    | none => none
  else if symbol = '*' then
    match st.stack with
    | top :: rest =>
      some { st with stack := apply_kleene_star top :: rest, concatFlag := true }
    | [] => none
  else if symbol = '|' then
    match popConcats st.operators st.stack with
    | some (ops', stack') =>
      let stack'' := if st.concatFlag then stack'
                     else create_basic_epsilon_nfa :: stack'
      some { st with operators := '|' :: ops', stack := stack'', concatFlag := false }
    | none => none
  else if symbol = '\\' then
    some { st with escape := true }
  else
    some { operators := if st.concatFlag then '.' :: st.operators else st.operators,
           stack := create_basic_nfa symbol :: st.stack,
           concatFlag := true, escape := false }

/-- The character loop of `thompson_construction`. -/
def thompsonLoop (st : TState) : Str → Option TState
  | [] => some st
  | c :: rest =>
    match thompsonStep st c with
    | some st' => thompsonLoop st' rest
    | none => none

/-- `thompson_construction` (`thompson.rs` lines 45-166): run the loop, fix
up a trailing `'|'` with an empty right operand, drain the operator stack,
and require a single NFA on the stack. -/
def thompson_construction (normalised : Str) : Option Nfa := do
  let st ← thompsonLoop
    { operators := [], stack := [], concatFlag := false, escape := false }
    normalised
  let stack0 :=
    match st.operators with
    | '|' :: _ => if st.stack.length < 2
                  then create_basic_epsilon_nfa :: st.stack else st.stack
    | _ => st.stack
  let stack1 ← drainOps st.operators stack0
  match stack1 with
  | [nfa] => some nfa
  | _ => none

/-! ## NFA → DFA (subset construction with ε-closure, `thompson.rs`
lines 281-366) -/

/-- Sorted duplicate-free insertion for characters. -/
def setInsertC (x : Char) : List Char → List Char
  | [] => [x]
  | y :: rest =>
    if x < y then x :: y :: rest
    else if x = y then y :: rest
    else y :: setInsertC x rest

/-- All states mentioned by an ε-NFA (used only to bound the closure /
subset-construction loops, whose Rust counterparts terminate because this
set is finite). -/
def nfaUniverse (nfa : Nfa) : List Nat :=
  nfa.transitions.foldl (fun acc e => setUnion (setInsert e.1.1 acc) e.2)
    [nfa.accepting_state]

/-- The `while let Some(&state_id) = stack.iter().next()` worklist of
`epsilon_closure`: pop a pending state, add its unseen ε-successors to the
set and to the stack.  Each state is pushed at most once (`states.insert`
guards the push), so the number of pops — the fuel — is bounded by the
initial set plus the whole universe. -/
def closureLoop (nfa : Nfa) : Nat → List Nat → List Nat → List Nat
  | 0, states, _ => states
  | _ + 1, states, [] => states
  | fuel + 1, states, s :: stack =>
    match alGet nfa.transitions (s, none) with
    | some ts =>
      let (states', stack') := ts.foldl
        (fun (acc : List Nat × List Nat) t =>
          if acc.1.contains t then acc else (setInsert t acc.1, t :: acc.2))
        (states, stack)
      closureLoop nfa fuel states' stack'
    | none => closureLoop nfa fuel states stack

/-- `epsilon_closure`: the ε-reachable closure of a state set. -/
def epsilon_closure (nfa : Nfa) (states : List Nat) : List Nat :=
  closureLoop nfa ((nfaUniverse nfa).length + states.length + 1) states states

/-- `move_nfa`: states reachable on `symbol` from `states`. -/
def move_nfa (nfa : Nfa) (states : List Nat) (symbol : Char) : List Nat :=
  states.foldl
    (fun acc s =>
      match alGet nfa.transitions (s, some symbol) with
      | some ts => setUnion acc ts
      | none => acc)
    []

/-- The characters appearing on NFA transitions (`symbols` in
`nfa_to_dfa`; the Rust `HashSet` iteration order is unspecified, modelled
here in ascending order). -/
def nfaSymbols (nfa : Nfa) : List Char :=
  nfa.transitions.foldl
    (fun acc e =>
      match e.1.2 with
      | some c => setInsertC c acc
      | none => acc)
    []

/-- The `for symbol in symbols` body of `nfa_to_dfa`: thread the state map,
DFA transitions and the unmarked stack.  `none` models the impossible
`state_map[...]` lookup failure. -/
def subsetSymbols (nfa : Nfa) (current : List Nat) (currentId : Nat) :
    List Char → List (List Nat × Nat) → List ((Nat × Char) × Nat) →
    List (List Nat) →
    Option (List (List Nat × Nat) × List ((Nat × Char) × Nat) × List (List Nat))
  | [], sm, tr, um => some (sm, tr, um)
  | c :: cs, sm, tr, um =>
    let mc := epsilon_closure nfa (move_nfa nfa current c)
    if mc = [] then subsetSymbols nfa current currentId cs sm tr um
    else
      let nextId := sm.length
      let (sm', um') :=
        match alGet sm mc with
        | some _ => (sm, um)
        | none => (alInsert sm mc nextId, mc :: um)
      match alGet sm' mc with
      | some target =>
        subsetSymbols nfa current currentId cs sm' (alInsert tr (currentId, c) target) um'
      | none => none

/-- The `while let Some(current_closure) = unmarked_states.pop()` loop of
`nfa_to_dfa` (`unmarked` is a stack: Rust `Vec::pop` takes the most recently
pushed closure, modelled with the list head). -/
def nfaToDfaLoop (nfa : Nfa) :
    Nat → List (List Nat × Nat) → List Nat → List ((Nat × Char) × Nat) →
    List (List Nat) → Option (List ((Nat × Char) × Nat) × List Nat)
  | 0, _, _, _, _ => none
  | _ + 1, _, accStates, tr, [] => some (tr, accStates)
  | fuel + 1, sm, accStates, tr, current :: unmarkedRest =>
    match alGet sm current with
    | none => none
    | some currentId =>
      let accStates' :=
        if current.contains nfa.accepting_state then setInsert currentId accStates
        else accStates
      match subsetSymbols nfa current currentId (nfaSymbols nfa) sm tr unmarkedRest with
      | some (sm', tr', um') => nfaToDfaLoop nfa fuel sm' accStates' tr' um'
      | none => none

/-- `nfa_to_dfa` (`thompson.rs` lines 314-366).  The loop runs once per
distinct subset, of which there are fewer than `2 ^ |universe|`. -/
def nfa_to_dfa (nfa : Nfa) : Option Dfa := do
  let startClosure := epsilon_closure nfa [0]
  let (tr, accStates) ← nfaToDfaLoop nfa (2 ^ (nfaUniverse nfa).length + 1)
    [(startClosure, 0)] [] [] [startClosure]
  some { transitions := tr, accepting_states := accStates }

/-! ## Glushkov construction (`glushkov.rs`) -/

inductive SymbolType where
  | Normal
  | KleeneStar
  | Escaped
  deriving Repr, DecidableEq

/-- The ε-free NFA of `glushkov.rs`: transitions keyed by `(u32, char)`,
several accepting states. -/
structure GNfa where
  transitions : List ((Nat × Char) × List Nat)
  accepting_states : List Nat
  deriving Repr, DecidableEq

/-- The mutable locals of `index_states`: the current `symbol_type`, the
group stack (head = top, initially `[0]`), `idx` and `next_group_id`. -/
structure IdxLocals where
  symbolType : SymbolType
  groupStack : List Nat
  idx : Nat
  nextGroupId : Nat
  deriving Repr

/-- The `while let Some(symbol) = chars.next()` loop of `index_states`
(`glushkov.rs` lines 71-132).  `chars.peek()` is the head of the remaining
input.  `group_stack.last().unwrap()` is modelled by `headD 0`; the stack
can only be empty for inputs with unmatched `)`, which never pass the
validator. -/
def indexLoop (loc : IdxLocals)
    (acc : List (Nat × (Char × SymbolType × Nat))) :
    Str → List (Nat × (Char × SymbolType × Nat))
  | [] => acc
  | symbol :: rest =>
    if loc.symbolType = SymbolType.Escaped then
      indexLoop { loc with symbolType := SymbolType.Normal, idx := loc.idx + 1 }
        (alInsert acc loc.idx (symbol, SymbolType.Escaped, loc.groupStack.headD 0))
        rest
    else if symbol = '|' then
      indexLoop { loc with
          groupStack := loc.nextGroupId :: loc.groupStack.tail,
          nextGroupId := loc.nextGroupId + 1 } acc rest
    else if symbol = '(' then
      indexLoop { loc with
          groupStack := loc.nextGroupId :: loc.groupStack,
          nextGroupId := loc.nextGroupId + 1 } acc rest
    else if symbol = ')' then
      indexLoop { loc with groupStack := loc.groupStack.tail } acc rest
    else if symbol = '*' then
      indexLoop { loc with symbolType := SymbolType.Normal } acc rest
    else if symbol = '\\' then
      indexLoop { loc with symbolType := SymbolType.Escaped } acc rest
    else
      let ty := if rest.headD (Char.ofNat 0) = '*' ∧ rest ≠ []
                then SymbolType.KleeneStar else loc.symbolType
      indexLoop { loc with symbolType := ty, idx := loc.idx + 1 }
        (alInsert acc loc.idx (symbol, ty, loc.groupStack.headD 0)) rest

/-- `index_states`. -/
def index_states (regex : Str) : List (Nat × (Char × SymbolType × Nat)) :=
  indexLoop
    { symbolType := SymbolType.Normal, groupStack := [0], idx := 0, nextGroupId := 1 }
    [] regex

/-- Group the indexed states by their group index, values in ascending
state order (`groups` in `fill_sets`, which sorts each group). -/
def buildGroups (states : List (Nat × (Char × SymbolType × Nat))) :
    List (Nat × List Nat) :=
  states.foldl (fun acc e => alPush acc e.2.2.2 e.1) []

/-- The start states of `fill_sets`: the first state of each group, plus
the successor of every Kleene-star state within its group. -/
def buildStartStates (states : List (Nat × (Char × SymbolType × Nat)))
    (groups : List (Nat × List Nat)) : List Nat :=
  groups.foldl
    (fun acc ge =>
      let group := ge.2
      match group with
      | [] => acc
      | g0 :: _ =>
        let acc := setInsert g0 acc
        (List.range group.length).foldl
          (fun acc2 i =>
            match alGet states (group.getD i 0) with
            | some (_, SymbolType.KleeneStar, _) =>
              if i + 1 < group.length then setInsert (group.getD (i + 1) 0) acc2
              else acc2
            | _ => acc2)
          acc)
    []

/-- Transitions and accepting states of `fill_sets` (the
`for (state_id, (symbol, symbol_type, group_idx)) in &states` loop). -/
def buildTransitions (states : List (Nat × (Char × SymbolType × Nat)))
    (groups : List (Nat × List Nat)) :
    List ((Nat × Char) × List Nat) × List Nat :=
  states.foldl
    (fun acc e =>
      let (tr, accStates) := acc
      let (stateId, symbol, symbolType, groupIdx) :=
        (e.1, e.2.1, e.2.2.1, e.2.2.2)
      let group := (alGet groups groupIdx).getD []
      let pos := (group.indexOf stateId)
      match symbolType with
      | SymbolType.Normal | SymbolType.Escaped =>
        if pos + 1 < group.length then
          (alPush tr (stateId, symbol) (group.getD (pos + 1) 0), accStates)
        else (tr, setInsert stateId accStates)
      | SymbolType.KleeneStar =>
        let tr := alPush tr (stateId, symbol) stateId
        if pos + 1 < group.length then
          ((group.drop (pos + 1)).foldl
            (fun t next => alPush t (stateId, symbol) next) tr, accStates)
        else (tr, setInsert stateId accStates))
    ([], [])

/-- `fill_sets` (`glushkov.rs` lines 134-226): build the position NFA and
attach the synthetic start state `max position + 1` with a transition to
every start state on that state's own letter. -/
def fill_sets (states : List (Nat × (Char × SymbolType × Nat))) : GNfa :=
  if states.length = 0 then { transitions := [], accepting_states := [] }
  else
    let groups := buildGroups states
    let startStates := buildStartStates states groups
    let (tr0, accStates) := buildTransitions states groups
    let virtualStart := (states.foldl (fun m e => max m e.1) 0) + 1
    let tr1 := startStates.foldl
      (fun t s =>
        let symbol := ((alGet states s).getD (Char.ofNat 0, SymbolType.Normal, 0)).1
        alPush t (virtualStart, symbol) s)
      tr0
    { transitions := tr1, accepting_states := accStates }

/-- `glushkov_construction` (`glushkov.rs` lines 55-69). -/
def glushkov_construction (regex : Str) : GNfa :=
  fill_sets (index_states regex)

/-! ## ε-free NFA → DFA (`nfa_no_epsilon_to_dfa`, `glushkov.rs`
lines 229-339) -/

/-- The alphabet of a Glushkov NFA (ascending order; the Rust `HashSet`
iteration order is unspecified). -/
def gnfaAlphabet (nfa : GNfa) : List Char :=
  nfa.transitions.foldl (fun acc e => setInsertC e.1.2 acc) []

/-- All states of a Glushkov NFA: transition sources, transition targets
and accepting states. -/
def gnfaAllStates (nfa : GNfa) : List Nat :=
  let fromTrans := nfa.transitions.foldl
    (fun acc e => setUnion (setInsert e.1.1 acc) e.2) []
  setUnion fromTrans nfa.accepting_states

/-- Targets reachable from the subset `current` on `symbol`. -/
def gnfaMove (nfa : GNfa) (current : List Nat) (symbol : Char) : List Nat :=
  current.foldl
    (fun acc s =>
      match alGet nfa.transitions (s, symbol) with
      | some ts => setUnion acc ts
      | none => acc)
    []

/-- The `for &symbol in &alphabet` body of `nfa_no_epsilon_to_dfa`. -/
def gSubsetSymbols (nfa : GNfa) (current : List Nat) (currentId : Nat) :
    List Char → List (List Nat × Nat) → List ((Nat × Char) × Nat) →
    List (List Nat) →
    Option (List (List Nat × Nat) × List ((Nat × Char) × Nat) × List (List Nat))
  | [], sm, tr, queue => some (sm, tr, queue)
  | c :: cs, sm, tr, queue =>
    let next := gnfaMove nfa current c
    if next = [] then gSubsetSymbols nfa current currentId cs sm tr queue
    else
      let (sm', queue') :=
        match alGet sm next with
        | some _ => (sm, queue)
        | none => (alInsert sm next sm.length, queue ++ [next])
      match alGet sm' next with
      | some target =>
        gSubsetSymbols nfa current currentId cs sm'
          (alInsert tr (currentId, c) target) queue'
      | none => none

/-- The `while let Some(current_nfa_states) = work_queue.pop_front()` loop
(FIFO: head = front, `push_back` appends). -/
def gSubsetLoop (nfa : GNfa) :
    Nat → List (List Nat × Nat) → List Nat → List ((Nat × Char) × Nat) →
    List (List Nat) → Option (List ((Nat × Char) × Nat) × List Nat)
  | 0, _, _, _, _ => none
  | _ + 1, _, accStates, tr, [] => some (tr, accStates)
  | fuel + 1, sm, accStates, tr, current :: queueRest =>
    match alGet sm current with
    | none => none
    | some currentId =>
      let accStates' :=
        if current.any (fun s => nfa.accepting_states.contains s) then
          setInsert currentId accStates
        else accStates
      match gSubsetSymbols nfa current currentId (gnfaAlphabet nfa) sm tr queueRest with
      | some (sm', tr', queue') => gSubsetLoop nfa fuel sm' accStates' tr' queue'
      | none => none

/-- `nfa_no_epsilon_to_dfa`.  NOTE (faithful to the source): the subset
construction starts from NFA state `0` — the comment in `glushkov.rs` reads
"In a Glushkov NFA, state 0 is always the start state" — even though
`fill_sets` places the synthetic start at `max position + 1`.  `none`
models the `panic!` when state 0 does not exist. -/
def nfa_no_epsilon_to_dfa (nfa : GNfa) : Option Dfa := do
  if (gnfaAllStates nfa).contains 0 = false then none
  else
    let startSet : List Nat := [0]
    let (tr, accStates) ← gSubsetLoop nfa (2 ^ (gnfaAllStates nfa).length + 1)
      [(startSet, 0)] [] [] [startSet]
    some { transitions := tr, accepting_states := accStates }

/-! ## DFA minimisation: the trait method `Dfa::optimise_dfa`
(`lib.rs` lines 15-154) -/

/-- `map.entry(key).or_default().insert(val)` on a
`HashMap<char, HashSet<u32>>`. -/
def alPushSet (m : List (Char × List Nat)) (key : Char) (val : Nat) :
    List (Char × List Nat) :=
  match alGet m key with
  | some vs => alInsert m key (setInsert val vs)
  | none => alInsert m key [val]

/-- Source states of all transitions. -/
def dfaSources (d : Dfa) : List Nat :=
  d.transitions.foldl (fun acc e => setInsert e.1.1 acc) []

/-- The mutable state of the partition-refinement loop: `partition` maps a
state to its block index, `partitionList` holds the blocks (sorted sets),
`worklist` is the `VecDeque` of pending block indices (head = front). -/
structure OptState where
  partition : List (Nat × Nat)
  partitionList : List (List Nat)
  worklist : List Nat
  deriving Repr

/-- `states_to_check`: for the splitter block `p`, group by character the
sources of transitions into `p`.  The `partition[&target_state]` lookup is
total in Rust only when every target state is a source or accepting (true
for every DFA the subset constructions emit); absent states are read as
block 0 here where Rust would abort. -/
def statesToCheck (d : Dfa) (partition : List (Nat × Nat)) (p : Nat) :
    List (Char × List Nat) :=
  d.transitions.foldl
    (fun acc e =>
      if (alGet partition e.2).getD 0 = p then alPushSet acc e.1.2 e.1.1
      else acc)
    []

/-- Split one block (`partition_index_to_split`) against the splitter set
`X` (`states_to_split`): replace the block by the difference, append the
intersection as a fresh block, and enqueue the smaller half (ties go to the
old index, which now holds the difference). -/
def splitOne (st : OptState) (X : List Nat) (idx : Nat) : OptState :=
  let block := st.partitionList.getD idx []
  let inter := block.filter (fun s => X.contains s)
  let diff := block.filter (fun s => !(X.contains s))
  if inter ≠ [] ∧ diff ≠ [] then
    let newIdx := st.partitionList.length
    let partition' := inter.foldl (fun m s => alInsert m s newIdx) st.partition
    let pl' := (st.partitionList ++ [inter]).set idx diff
    let wl' := st.worklist ++ [if inter.length < diff.length then newIdx else idx]
    { partition := partition', partitionList := pl', worklist := wl' }
  else st

/-- Process one `states_to_split` set: determine the splittable blocks
(those of size > 1 meeting `X`) from the current partition, then split each
in turn. -/
def processX (st : OptState) (X : List Nat) : OptState :=
  let toSplit := X.foldl
    (fun acc s =>
      let pi := (alGet st.partition s).getD 0
      if (st.partitionList.getD pi []).length > 1 then setInsert pi acc
      else acc)
    []
  toSplit.foldl (fun st' idx => splitOne st' X idx) st

/-- One iteration of the `while let Some(current_partition_index)` loop:
compute `states_to_check` from the current partition, then process each
character's source set against that snapshot. -/
def processSplitter (d : Dfa) (st : OptState) (p : Nat) : OptState :=
  let s2c := statesToCheck d st.partition p
  s2c.foldl (fun st' e => processX st' e.2) st

/-- The refinement loop.  Every iteration pops one worklist entry and every
split pushes exactly one, so the loop runs at most `2 + #splits` times; the
fuel passed by `optimise_dfa` dominates this. -/
def optimiseLoop (d : Dfa) : Nat → OptState → Option OptState
  | 0, _ => none
  | fuel + 1, st =>
    match st.worklist with
    | [] => some st
    | p :: rest =>
      optimiseLoop d fuel (processSplitter d { st with worklist := rest } p)

/-- Rebuild the minimal DFA (`lib.rs` lines 113-153): the partition of old
state 0 becomes new state 0, remaining partitions are numbered in the order
they are first met while iterating `partition` (ascending state order
here; the Rust `HashMap` order is unspecified). -/
def rebuildDfa (d : Dfa) (st : OptState) : Dfa :=
  let base : List (Nat × Nat) :=
    match alGet st.partition 0 with
    | some pi => [(pi, 0)]
    | none => []
  let nsm := st.partition.foldl
    (fun m e =>
      match alGet m e.2 with
      | some _ => m
      | none => alInsert m e.2 m.length)
    base
  let accepting' := st.partition.foldl
    (fun acc e =>
      if d.accepting_states.contains e.1 then
        setInsert ((alGet nsm e.2).getD 0) acc
      else acc)
    []
  let transitions' := d.transitions.foldl
    (fun tr e =>
      let sp := (alGet st.partition e.1.1).getD 0
      let tp := (alGet st.partition e.2).getD 0
      alInsert tr (((alGet nsm sp).getD 0), e.1.2) ((alGet nsm tp).getD 0))
    []
  { transitions := transitions', accepting_states := accepting' }

/-- `Dfa::optimise_dfa`: Hopcroft-style partition refinement followed by the
rebuild.  (The Rust method mutates in place; here the new DFA is
returned.) -/
def optimise_dfa (d : Dfa) : Option Dfa :=
  let sources := dfaSources d
  let allStates := setUnion sources d.accepting_states
  let acceptingSet := allStates.filter (fun s => d.accepting_states.contains s)
  let nonAccepting := sources.filter (fun s => !(d.accepting_states.contains s))
  let partition0 := allStates.foldl
    (fun m s =>
      alInsert m s (if d.accepting_states.contains s then 0 else 1))
    []
  let worklist0 :=
    (if acceptingSet ≠ [] then [0] else []) ++
    (if nonAccepting ≠ [] then [1] else [])
  (optimiseLoop d (2 * allStates.length + 4)
      { partition := partition0, partitionList := [acceptingSet, nonAccepting],
        worklist := worklist0 }).map
    (rebuildDfa d)

/-! ## The public pipeline (`Regex::new` / `ThompsonDfa::new` /
`GlushkovDfa::new`)

`ThompsonDfa::new` and `GlushkovDfa::new` begin with
`if !is_valid_regex(regex) { panic!(...) }`; the `none` result models that
abort (`lib.rs`'s `Regex::new` would instead expect a
`Result<Self, String>` from these constructors). -/

/-- `ThompsonDfa::new` (`thompson.rs` lines 14-25). -/
def thompsonNew (regex : Str) : Option Dfa := do
  if is_valid_regex regex = false then none
  else
    let normalised ← normalise_regex regex
    let nfa ← thompson_construction normalised
    let dfa ← nfa_to_dfa nfa
    optimise_dfa dfa

/-- `GlushkovDfa::new` (`glushkov.rs` lines 23-35). -/
def glushkovNew (regex : Str) : Option Dfa := do
  if is_valid_regex regex = false then none
  else
    let normalised ← normalise_regex regex
    let nfa := glushkov_construction normalised
    let dfa ← nfa_no_epsilon_to_dfa nfa
    optimise_dfa dfa

/-- `Regex::is_match` through the Thompson engine. -/
def thompsonIsMatch (regex : Str) (text : Str) : Option Bool :=
  (thompsonNew regex).map fun d => d.process text

/-- `Regex::is_match` through the Glushkov engine. -/
def glushkovIsMatch (regex : Str) (text : Str) : Option Bool :=
  (glushkovNew regex).map fun d => d.process text

/-! ## Specification-side auxiliary definitions

These are not translations of Rust code; they are used to state the claims
(the greatest accepting index of a scan, and the declarative reading of the
validator contract). -/

/-- The greatest `k` such that the DFA run from `q` over `cs.take (k + 1)`
survives and ends in an accepting state (the index the executors record in
`match_end`, relative to the scan start). -/
def greatestAccept (d : Dfa) (q : Nat) : Str → Option Nat
  | [] => none
  | c :: rest =>
    match d.step q c with
    | none => none
    | some q' =>
      match greatestAccept d q' rest with
      | some k => some (k + 1)
      | none => if d.isAccepting q' then some 0 else none

/-- Tokens of a pattern: the declarative unit the validator contract talks
about (an escape `\c` is a single two-character token). -/
inductive Tok where
  | lparen
  | rparen
  | quant (c : Char)
  | esc (c : Char)
  | lit (c : Char)
  deriving Repr, DecidableEq

/-- The token of a single unescaped character. -/
def tokOf (c : Char) : Tok :=
  if c = '(' then Tok.lparen
  else if c = ')' then Tok.rparen
  else if c = '*' ∨ c = '+' then Tok.quant c
  else Tok.lit c

/-- Tokenize a pattern; `none` exactly when a trailing `\` has no character
to escape. -/
def tokenize : Str → Option (List Tok)
  | [] => some []
  | c :: rest =>
    if c = '\\' then
      match rest with
      | [] => none
      | e :: rest' => (tokenize rest').map (Tok.esc e :: ·)
    else
      (tokenize rest).map (tokOf c :: ·)

/-- Is the token a quantifier (`*` or `+`)? -/
def isQuant : Tok → Bool
  | Tok.quant _ => true
  | _ => false

/-- "Every parenthesis is balanced": every `)` has an unmatched `(` before
it, and at the end all `(` are closed (counter starting at `n`). -/
def balancedFrom : Nat → List Tok → Bool
  | n, [] => n == 0
  | n, t :: rest =>
    match t with
    | Tok.lparen => balancedFrom (n + 1) rest
    | Tok.rparen => decide (0 < n) && balancedFrom (n - 1) rest
    | _ => balancedFrom n rest

/-- Pairwise condition: a quantifier may not immediately follow `(` or
another quantifier (`prev` is the preceding token). -/
def quantPairsOk (prev : Tok) : List Tok → Prop
  | [] => True
  | t :: rest =>
    (isQuant t = true → prev ≠ Tok.lparen ∧ isQuant prev = false) ∧
    quantPairsOk t rest

/-- A quantifier is not the first token, and every quantifier is preceded
by a token that is neither `(` nor a quantifier (a literal — including `|`
— an escape, or `)`). -/
def quantPositionsOk : List Tok → Prop
  | [] => True
  | t :: rest => isQuant t = false ∧ quantPairsOk t rest

/-- The declarative validator contract (the amended claim C5): non-empty,
tokenizable (no dangling escape), balanced parentheses, and well-placed
quantifiers. -/
def validSpec (r : Str) : Prop :=
  r ≠ [] ∧ ∃ toks, tokenize r = some toks ∧
    balancedFrom 0 toks = true ∧ quantPositionsOk toks

/-- The "last was quantifier" flag the scanner would hold after reading a
token: set after `(` and after a quantifier. -/
def nextLwq (t : Tok) : Bool :=
  match t with
  | Tok.lparen => true
  | Tok.quant _ => true
  | _ => false

/-- Scanner-style rendering of the quantifier-placement condition, used to
bridge `validLoop` and `quantPositionsOk`. -/
def quantChain : Bool → List Tok → Prop
  | _, [] => True
  | lwq, t :: rest =>
    (isQuant t = true → lwq = false) ∧ quantChain (nextLwq t) rest

/-- "The substring `s[i..=j]` is a (whole) match of the compiled DFA": the
indices are in range and `process` accepts the slice. -/
def matchesAt (d : Dfa) (s : Str) (i j : Nat) : Prop :=
  i ≤ j ∧ j < s.length ∧ d.process (slice s i j) = true

/-- A small concrete DFA (language `a+`) used to instantiate the generic
executor theorems on concrete inputs. -/
def demoDfa : Dfa :=
  { transitions := [((0, 'a'), 0)], accepting_states := [0] }

/-! # Theorems -/

/-- Claim C1 (code_bug): the two engines do NOT agree on exact matching for
every validator-accepted pattern.  For the valid pattern `"a"` the Thompson
engine matches `"a"` (and not `""`), while the Glushkov engine — whose
determinisation starts from position state 0 instead of the synthetic start
state — rejects `"a"` and accepts `""`. -/
theorem thompson_glushkov_disagree :
    is_valid_regex ['a'] = true ∧
    thompsonIsMatch ['a'] ['a'] = some true ∧
    glushkovIsMatch ['a'] ['a'] = some false ∧
    thompsonIsMatch ['a'] [] = some false ∧
    glushkovIsMatch ['a'] [] = some true := by
  decide

/-- Claim C4 (code_bug): for the pattern `"a"`, `fill_sets` does place the
synthetic start at `max position + 1 = 1` (the only transition is
`1 -a-> 0`), but `nfa_no_epsilon_to_dfa` starts the subset construction
from state `0`: the resulting DFA has NO transition on `'a'` and its start
state 0 — representing the position set `{0}`, not the synthetic start —
is accepting. -/
theorem glushkov_determinise_starts_at_position_zero :
    glushkov_construction ['a'] =
      { transitions := [((1, 'a'), [0])], accepting_states := [0] } ∧
    nfa_no_epsilon_to_dfa
      { transitions := [((1, 'a'), [0])], accepting_states := [0] } =
      some { transitions := [], accepting_states := [0] } := by
  decide

/-- Claim C7 (code_bug): for each class of invalid pattern named by the
spec, the validator rejects and both `ThompsonDfa::new` and
`GlushkovDfa::new` abort (`none` models their `panic!`) instead of
returning an `InvalidPattern` error as `Regex::new`'s
`Result<Self, String>` signature requires.  (`"a|"`, the spec's "trailing
alternation bar", is not even rejected: see
`validator_accepts_trailing_bar`.) -/
theorem invalid_patterns_abort :
    is_valid_regex [] = false ∧
    thompsonNew [] = none ∧ glushkovNew [] = none ∧
    is_valid_regex ['(', 'a'] = false ∧
    thompsonNew ['(', 'a'] = none ∧ glushkovNew ['(', 'a'] = none ∧
    is_valid_regex ['a', ')'] = false ∧
    thompsonNew ['a', ')'] = none ∧ glushkovNew ['a', ')'] = none ∧
    is_valid_regex ['*', 'a'] = false ∧
    thompsonNew ['*', 'a'] = none ∧ glushkovNew ['*', 'a'] = none ∧
    is_valid_regex ['a', '*', '*'] = false ∧
    thompsonNew ['a', '*', '*'] = none ∧ glushkovNew ['a', '*', '*'] = none ∧
    is_valid_regex ['a', '\\'] = false ∧
    thompsonNew ['a', '\\'] = none ∧ glushkovNew ['a', '\\'] = none := by
  decide

/-- Claim C9 (code_bug): `is_match(compile(p), "")` is NOT `true` iff `p`
is nullable for both engines: the pattern `"a"` is not nullable (its
language is `{"a"}`, as the Thompson engine correctly reflects), yet the
Glushkov engine accepts the empty input. -/
theorem glushkov_empty_match_not_nullable :
    glushkovIsMatch ['a'] [] = some true ∧
    thompsonIsMatch ['a'] [] = some false ∧
    thompsonIsMatch ['a'] ['a'] = some true := by
  decide

/-- Claim C5, counterexample: the validator has no `|` rule at all, so a
pattern ending in an unescaped `|` and a pattern with a quantifier directly
after `|` are both ACCEPTED, contradicting the claim. -/
theorem validator_accepts_trailing_bar :
    is_valid_regex ['a', '|'] = true ∧
    is_valid_regex ['a', '|', '*', 'b'] = true := by
  decide

/-- Claim C6, counterexample: `\c+` desugars to `\cc*` — only the single
previous character is duplicated, not the two-character escaped atom — so
the output is not `\c\c*`. -/
theorem normalise_escaped_plus_counterexample :
    normalise_regex ['\\', 'c', '+'] = some ['\\', 'c', 'c', '*'] ∧
    normalise_regex ['\\', 'c', '+'] ≠ some ['\\', 'c', '\\', 'c', '*'] := by
  decide

/-- Claim C8 (code_bug): minimisation is not language-preserving.  The
subset construction for the valid pattern `"aab|ab"` produces the chain
DFA below, whose language is `{ab, aab}`; `optimise_dfa` merges the
inequivalent states 1 and 2 (when block `{0,1,2}` is split by the `'b'`
sources `{1,2}`, the intersection is not enqueued although the block's
index is still on the worklist), and the minimised DFA accepts `"aaab"`,
which the input DFA rejects. -/
theorem optimise_dfa_not_language_preserving :
    (do
      let n ← normalise_regex ['a', 'a', 'b', '|', 'a', 'b']
      let nfa ← thompson_construction n
      nfa_to_dfa nfa : Option Dfa) =
      some { transitions := [((0, 'a'), 1), ((1, 'a'), 2), ((1, 'b'), 3), ((2, 'b'), 4)],
             accepting_states := [3, 4] } ∧
    optimise_dfa
      { transitions := [((0, 'a'), 1), ((1, 'a'), 2), ((1, 'b'), 3), ((2, 'b'), 4)],
        accepting_states := [3, 4] } =
      some { transitions := [((0, 'a'), 1), ((1, 'a'), 1), ((1, 'b'), 2)],
             accepting_states := [2] } ∧
    Dfa.process
      { transitions := [((0, 'a'), 1), ((1, 'a'), 2), ((1, 'b'), 3), ((2, 'b'), 4)],
        accepting_states := [3, 4] } ['a', 'a', 'a', 'b'] = false ∧
    Dfa.process
      { transitions := [((0, 'a'), 1), ((1, 'a'), 1), ((1, 'b'), 2)],
        accepting_states := [2] } ['a', 'a', 'a', 'b'] = true ∧
    Dfa.process
      { transitions := [((0, 'a'), 1), ((1, 'a'), 2), ((1, 'b'), 3), ((2, 'b'), 4)],
        accepting_states := [3, 4] } ['a', 'a', 'b'] = true := by
  decide

/-! ## Lemmas about the scanning loop -/

/-- `match_end` after a scan is the greatest accepting index (offset by the
scan origin `i`), falling back to the incoming `mE`. -/
theorem matchLoop_snd_eq (d : Dfa) :
    ∀ (cs : Str) (q i : Nat) (mS mE : Option Nat),
      (matchLoop d cs q i mS mE).2 =
        match greatestAccept d q cs with
        | some k => some (i + k)
        | none => mE := by
  intro cs
  induction cs with
  | nil => intro q i mS mE; rfl
  | cons c rest ih =>
    intro q i mS mE
    simp only [matchLoop, greatestAccept]
    cases hstep : d.step q c with
    | none => rfl
    | some q' =>
      rw [ih]
      cases hga : greatestAccept d q' rest with
      | some k =>
        try simp only [hga]
        have : i + 1 + k = i + (k + 1) := by omega
        rw [this]
      | none =>
        try simp only [hga]
        by_cases hacc : d.isAccepting q' <;> simp [hacc, hga]

/-- Once `match_start` is set it is never changed. -/
theorem matchLoop_fst_some (d : Dfa) :
    ∀ (cs : Str) (q i a : Nat) (mE : Option Nat),
      (matchLoop d cs q i (some a) mE).1 = some a := by
  intro cs
  induction cs with
  | nil => intro q i a mE; rfl
  | cons c rest ih =>
    intro q i a mE
    simp only [matchLoop]
    cases hstep : d.step q c with
    | none => rfl
    | some q' => simpa using ih q' (i + 1) a _

/-- Starting from `match_start = None`, the final `match_start` is the scan
origin exactly when the first transition exists. -/
theorem matchLoop_fst_eq (d : Dfa) :
    ∀ (cs : Str) (q i : Nat) (mE : Option Nat),
      (matchLoop d cs q i none mE).1 =
        match cs with
        | [] => none
        | c :: _ =>
          match d.step q c with
          | none => none
          | some _ => some i := by
  intro cs q i mE
  cases cs with
  | nil => rfl
  | cons c rest =>
    simp only [matchLoop]
    cases hstep : d.step q c with
    | none => rfl
    | some q' => simpa using matchLoop_fst_some d rest q' (i + 1) i _

/-- Unfolding: a dead first step kills the whole scan prefix. -/
theorem processFrom_cons_none {d : Dfa} {q : Nat} {c : Char} {xs : Str}
    (hstep : d.step q c = none) : processFrom d q (c :: xs) = false := by
  simp [processFrom, hstep]

/-- Unfolding: a live first step continues the run. -/
theorem processFrom_cons_some {d : Dfa} {q q' : Nat} {c : Char} {xs : Str}
    (hstep : d.step q c = some q') :
    processFrom d q (c :: xs) = processFrom d q' xs := by
  simp [processFrom, hstep]

/-- Unfolding lemma for `greatestAccept` on a dead first step. -/
theorem gA_cons_none {d : Dfa} {q : Nat} {c : Char} {rest : Str}
    (hstep : d.step q c = none) : greatestAccept d q (c :: rest) = none := by
  simp [greatestAccept, hstep]

/-- Unfolding lemma for `greatestAccept` on a live first step. -/
theorem gA_cons_some {d : Dfa} {q q' : Nat} {c : Char} {rest : Str}
    (hstep : d.step q c = some q') :
    greatestAccept d q (c :: rest) =
      match greatestAccept d q' rest with
      | some k => some (k + 1)
      | none => if d.isAccepting q' then some 0 else none := by
  simp [greatestAccept, hstep]

/-- One-step reduction of a scanned prefix. -/
theorem pf_take_cons {d : Dfa} {q q' : Nat} {c : Char} {rest : Str}
    (hstep : d.step q c = some q') (j : Nat) :
    processFrom d q ((c :: rest).take (j + 1)) =
      processFrom d q' (rest.take j) := by
  rw [List.take_succ_cons]
  exact processFrom_cons_some hstep

/-- `greatestAccept` is `none` exactly when no prefix of the scan is
accepted. -/
theorem gA_none_iff (d : Dfa) :
    ∀ (cs : Str) (q : Nat),
      greatestAccept d q cs = none ↔
        ∀ k, k < cs.length → processFrom d q (cs.take (k + 1)) = false := by
  intro cs
  induction cs with
  | nil => intro q; simp [greatestAccept]
  | cons c rest ih =>
    intro q
    cases hstep : d.step q c with
    | none =>
      rw [gA_cons_none hstep]
      simp only [true_iff]
      intro k _
      rw [List.take_succ_cons]
      exact processFrom_cons_none hstep
    | some q' =>
      rw [gA_cons_some hstep]
      cases hga : greatestAccept d q' rest with
      | some k =>
        simp only [hga]
        constructor
        · intro h; exact absurd h (by simp)
        · intro hall
          exfalso
          have hk := (ih q').not.mp (by simp [hga])
          push_neg at hk
          obtain ⟨j, hj, hpf⟩ := hk
          have hthis := hall (j + 1) (by simpa using Nat.succ_lt_succ hj)
          rw [pf_take_cons hstep] at hthis
          exact hpf hthis
      | none =>
        simp only [hga]
        have hnone := (ih q').mp hga
        by_cases hacc : d.isAccepting q'
        · rw [if_pos hacc]
          constructor
          · intro h; exact absurd h (by simp)
          · intro hall
            exfalso
            have h0 := hall 0 (by simp)
            rw [pf_take_cons hstep] at h0
            simp only [List.take_zero, processFrom] at h0
            rw [hacc] at h0
            exact absurd h0 (by simp)
        · rw [if_neg hacc]
          simp only [true_iff]
          intro k hk
          rw [pf_take_cons hstep]
          cases k with
          | zero =>
            simp only [List.take_zero, processFrom]
            exact Bool.not_eq_true _ ▸ (by simpa using hacc)
          | succ j =>
            exact hnone j (by simpa using Nat.lt_of_succ_lt_succ hk)

/-- `greatestAccept` returns exactly the greatest accepted prefix index. -/
theorem gA_some_iff (d : Dfa) :
    ∀ (cs : Str) (q k : Nat),
      greatestAccept d q cs = some k ↔
        (k < cs.length ∧ processFrom d q (cs.take (k + 1)) = true ∧
         ∀ k', k' < cs.length → processFrom d q (cs.take (k' + 1)) = true → k' ≤ k) := by
  intro cs
  induction cs with
  | nil => intro q k; simp [greatestAccept]
  | cons c rest ih =>
    intro q k
    cases hstep : d.step q c with
    | none =>
      rw [gA_cons_none hstep]
      simp only [reduceCtorEq, false_iff, not_and]
      intro _
      rw [List.take_succ_cons, processFrom_cons_none hstep]
      simp
    | some q' =>
      rw [gA_cons_some hstep]
      cases hga : greatestAccept d q' rest with
      | some k0 =>
        simp only [hga]
        obtain ⟨hk0, hpf0, hmax0⟩ := (ih q' k0).mp hga
        constructor
        · intro h
          have hk : k = k0 + 1 := by
            exact (Option.some_inj.mp h).symm
          subst hk
          refine ⟨by simpa using Nat.succ_lt_succ hk0, ?_, ?_⟩
          · rw [pf_take_cons hstep]; exact hpf0
          · intro k' hk' hacc'
            cases k' with
            | zero => omega
            | succ j =>
              rw [pf_take_cons hstep] at hacc'
              have := hmax0 j (by simpa using Nat.lt_of_succ_lt_succ hk') hacc'
              omega
        · rintro ⟨hk, hacc, hmax⟩
          have h1 : k0 + 1 ≤ k := by
            refine hmax (k0 + 1) (by simpa using Nat.succ_lt_succ hk0) ?_
            rw [pf_take_cons hstep]; exact hpf0
          have h2 : k ≤ k0 + 1 := by
            cases k with
            | zero => omega
            | succ j =>
              rw [pf_take_cons hstep] at hacc
              have := hmax0 j (by simpa using Nat.lt_of_succ_lt_succ hk) hacc
              omega
          have : k = k0 + 1 := by omega
          rw [this]
      | none =>
        simp only [hga]
        have hnone := (gA_none_iff d rest q').mp hga
        by_cases hacc : d.isAccepting q'
        · rw [if_pos hacc]
          constructor
          · intro h
            have hk : k = 0 := (Option.some_inj.mp h).symm
            subst hk
            refine ⟨by simp, ?_, ?_⟩
            · rw [pf_take_cons hstep]
              simp only [List.take_zero, processFrom]
              exact hacc
            · intro k' hk' hacc'
              cases k' with
              | zero => exact Nat.le_refl 0
              | succ j =>
                rw [pf_take_cons hstep] at hacc'
                have := hnone j (by simpa using Nat.lt_of_succ_lt_succ hk')
                rw [hacc'] at this
                exact absurd this (by simp)
          · rintro ⟨hk, hacck, _⟩
            cases k with
            | zero => rfl
            | succ j =>
              rw [pf_take_cons hstep] at hacck
              have := hnone j (by simpa using Nat.lt_of_succ_lt_succ hk)
              rw [hacck] at this
              exact absurd this (by simp)
        · rw [if_neg hacc]
          simp only [reduceCtorEq, false_iff, not_and]
          intro hk
          rw [pf_take_cons hstep]
          cases k with
          | zero =>
            simp only [List.take_zero, processFrom]
            simp only [hacc]
            simp
          | succ j =>
            have := hnone j (by simpa using Nat.lt_of_succ_lt_succ hk)
            simp [this]

/-- The scanned prefix of length `k + 1` starting at `i` is the slice
`s[i..=i+k]`. -/
theorem processFrom_take_slice (d : Dfa) (s : Str) (i k : Nat) :
    processFrom d 0 ((s.drop i).take (k + 1)) = d.process (slice s i (i + k)) := by
  unfold Dfa.process slice
  have h : i + k + 1 - i = k + 1 := by omega
  rw [h]

/-- `greatestAccept` over `s.drop i` finds exactly the longest match
starting at `i`. -/
theorem gA_drop_some (d : Dfa) (s : Str) (i k : Nat) :
    greatestAccept d 0 (s.drop i) = some k ↔
      (matchesAt d s i (i + k) ∧ ∀ j', matchesAt d s i j' → j' ≤ i + k) := by
  rw [gA_some_iff]
  constructor
  · rintro ⟨hk, hpf, hmax⟩
    rw [List.length_drop] at hk
    have hik : i + k < s.length := by omega
    refine ⟨⟨by omega, hik, ?_⟩, ?_⟩
    · rw [← processFrom_take_slice]; exact hpf
    · rintro j' ⟨hij', hj'len, hproc⟩
      have hj' : j' = i + (j' - i) := by omega
      rw [hj'] at hproc
      rw [← processFrom_take_slice] at hproc
      have := hmax (j' - i) (by rw [List.length_drop]; omega) hproc
      omega
  · rintro ⟨⟨hik, hiklen, hproc⟩, hmax⟩
    rw [← processFrom_take_slice] at hproc
    refine ⟨by rw [List.length_drop]; omega, hproc, ?_⟩
    intro k' hk' hpf'
    rw [List.length_drop] at hk'
    rw [processFrom_take_slice] at hpf'
    have := hmax (i + k') ⟨by omega, by omega, hpf'⟩
    omega

/-- `greatestAccept` over `s.drop i` is `none` exactly when no match starts
at `i`. -/
theorem gA_drop_none (d : Dfa) (s : Str) (i : Nat) :
    greatestAccept d 0 (s.drop i) = none ↔ ∀ j', ¬ matchesAt d s i j' := by
  rw [gA_none_iff]
  constructor
  · rintro h j' ⟨hij', hj'len, hproc⟩
    have hj' : j' = i + (j' - i) := by omega
    rw [hj'] at hproc
    rw [← processFrom_take_slice] at hproc
    have := h (j' - i) (by rw [List.length_drop]; omega)
    rw [hproc] at this
    exact absurd this (by simp)
  · intro h k hk
    rw [List.length_drop] at hk
    rw [processFrom_take_slice]
    by_contra hcon
    have hproc : d.process (slice s i (i + k)) = true := by
      cases hb : d.process (slice s i (i + k)) with
      | false => exact absurd hb hcon
      | true => rfl
    exact h (i + k) ⟨by omega, by omega, hproc⟩

/-- Full characterisation of `findFrom`: the returned span is the leftmost
match start at or after `pos`, with the longest end for that start. -/
theorem findFrom_spec (d : Dfa) (s : Str) :
    ∀ (n pos : Nat), s.length - pos ≤ n → ∀ (r : Nat × Nat),
      (findFrom d s pos = some r ↔
        (pos ≤ r.1 ∧ matchesAt d s r.1 r.2 ∧
         (∀ j', matchesAt d s r.1 j' → j' ≤ r.2) ∧
         (∀ i', pos ≤ i' → i' < r.1 → ∀ j', ¬ matchesAt d s i' j'))) := by
  intro n
  induction n with
  | zero =>
    intro pos hpos r
    have hge : ¬ pos < s.length := by omega
    rw [findFrom]
    simp only [hge, dite_false]
    constructor
    · intro h; exact absurd h (by simp)
    · rintro ⟨hle, ⟨hij, hjlen, _⟩, _, _⟩
      omega
  | succ n ih =>
    intro pos hpos r
    by_cases hlt : pos < s.length
    · rw [findFrom]
      simp only [hlt, dite_true]
      have hsnd := matchLoop_snd_eq d (s.drop pos) 0 pos none none
      cases hga : greatestAccept d 0 (s.drop pos) with
      | some k =>
        have h2 : (matchLoop d (s.drop pos) 0 pos none none).2 = some (pos + k) := by
          rw [hsnd, hga]
        have h1 : (matchLoop d (s.drop pos) 0 pos none none).1 = some pos := by
          rw [matchLoop_fst_eq]
          cases hcs : s.drop pos with
          | nil => rw [hcs] at hga; simp [greatestAccept] at hga
          | cons c rest =>
            rw [hcs] at hga
            cases hstep : d.step 0 c with
            | none => rw [gA_cons_none hstep] at hga; exact absurd hga (by simp)
            | some q' => simp [hstep]
        have heq : matchLoop d (s.drop pos) 0 pos none none =
            (some pos, some (pos + k)) := by
          rw [Prod.ext_iff]; exact ⟨h1, h2⟩
        rw [heq]
        obtain ⟨hmatch, hmax⟩ := (gA_drop_some d s pos k).mp hga
        constructor
        · intro h
          have hr : r = (pos, pos + k) := (Option.some_inj.mp h).symm
          subst hr
          exact ⟨Nat.le_refl pos, hmatch, hmax, fun i' h1' h2' j' => by omega⟩
        · rintro ⟨hle, hm, hmax2, hnone⟩
          have hr1 : r.1 = pos := by
            by_contra hne
            have : pos < r.1 := by omega
            exact hnone pos (Nat.le_refl pos) this (pos + k) hmatch
          have hr2 : r.2 = pos + k := by
            have ha : pos + k ≤ r.2 := hmax2 (pos + k) (hr1 ▸ hmatch)
            have hb : r.2 ≤ pos + k := hmax r.2 (hr1 ▸ hm)
            omega
          rw [show r = (r.1, r.2) from rfl, hr1, hr2]
      | none =>
        have h2 : (matchLoop d (s.drop pos) 0 pos none none).2 = none := by
          rw [hsnd, hga]
        have hnomatch : ∀ j', ¬ matchesAt d s pos j' := (gA_drop_none d s pos).mp hga
        have hrec := ih (pos + 1) (by omega) r
        have hstep_eq :
            (match matchLoop d (s.drop pos) 0 pos none none with
              | (some st, some e) => some (st, e)
              | _ => findFrom d s (pos + 1)) = findFrom d s (pos + 1) := by
          cases hfst : (matchLoop d (s.drop pos) 0 pos none none).1 with
          | none =>
            have heq : matchLoop d (s.drop pos) 0 pos none none = (none, none) := by
              rw [Prod.ext_iff]; exact ⟨hfst, h2⟩
            rw [heq]
          | some a =>
            have heq : matchLoop d (s.drop pos) 0 pos none none = (some a, none) := by
              rw [Prod.ext_iff]; exact ⟨hfst, h2⟩
            rw [heq]
        rw [hstep_eq, hrec]
        constructor
        · rintro ⟨hle, hm, hmax2, hnone⟩
          refine ⟨by omega, hm, hmax2, ?_⟩
          intro i' hpi' hlt' j'
          rcases Nat.eq_or_lt_of_le hpi' with heq' | hlt''
          · rw [← heq']; exact hnomatch j'
          · exact hnone i' hlt'' hlt' j'
        · rintro ⟨hle, hm, hmax2, hnone⟩
          have hne : r.1 ≠ pos := by
            intro hcon
            exact hnomatch r.2 (hcon ▸ hm)
          refine ⟨by omega, hm, hmax2, ?_⟩
          intro i' hpi' hlt' j'
          exact hnone i' (by omega) hlt' j'
    · rw [findFrom]
      simp only [hlt, dite_false]
      constructor
      · intro h; exact absurd h (by simp)
      · rintro ⟨hle, ⟨hij, hjlen, _⟩, _, _⟩
        omega

/-- Claim C2 (confirmed): `find_first_match` returns `some t` iff there is
a span `i ≤ j` with `t = s[i..=j]` and `process` accepting `t`, where `i`
is the least start of any match and `j` the greatest end of a match
starting at `i` — leftmost-longest semantics. -/
theorem find_first_match_leftmost_longest (d : Dfa) (s t : Str) :
    find_first_match d s = some t ↔
      ∃ i j, matchesAt d s i j ∧ t = slice s i j ∧
        (∀ i' j', matchesAt d s i' j' → i ≤ i') ∧
        (∀ j', matchesAt d s i j' → j' ≤ j) := by
  unfold find_first_match
  constructor
  · intro h
    obtain ⟨r, hr, ht⟩ := Option.map_eq_some'.mp h
    obtain ⟨_, hm, hmax, hnone⟩ :=
      (findFrom_spec d s s.length 0 (by omega) r).mp hr
    refine ⟨r.1, r.2, hm, ht.symm, ?_, hmax⟩
    intro i' j' hm'
    by_contra hcon
    exact hnone i' (Nat.zero_le _) (by omega) j' hm'
  · rintro ⟨i, j, hm, ht, hmin, hmax⟩
    have hsome : findFrom d s 0 = some (i, j) := by
      rw [findFrom_spec d s s.length 0 (by omega) (i, j)]
      refine ⟨Nat.zero_le _, hm, hmax, ?_⟩
      intro i' _ hlt j' hm'
      have := hmin i' j' hm'
      omega
    rw [hsome]
    simp [ht]

/-- If the scan at `pos` records a span, the recorded start is `pos`, the
end lies between `pos` and the end of the input, and it is the greatest
accepting offset. -/
theorem matchLoop_result_of_some (d : Dfa) (s : Str) (pos st e : Nat)
    (h : matchLoop d (s.drop pos) 0 pos none none = (some st, some e)) :
    st = pos ∧ pos ≤ e ∧ e < s.length := by
  have h1 : (matchLoop d (s.drop pos) 0 pos none none).1 = some st := by rw [h]
  have h2 : (matchLoop d (s.drop pos) 0 pos none none).2 = some e := by rw [h]
  rw [matchLoop_snd_eq] at h2
  cases hga : greatestAccept d 0 (s.drop pos) with
  | none => rw [hga] at h2; exact absurd h2 (by simp)
  | some k =>
    rw [hga] at h2
    have he : e = pos + k := (Option.some_inj.mp h2).symm
    obtain ⟨hk, _, _⟩ := (gA_some_iff d (s.drop pos) 0 k).mp hga
    rw [List.length_drop] at hk
    have hst : st = pos := by
      rw [matchLoop_fst_eq] at h1
      cases hcs : s.drop pos with
      | nil => rw [hcs] at h1; exact absurd h1 (by simp)
      | cons c rest =>
        rw [hcs] at h1
        cases hstep : d.step 0 c with
        | none => simp [hstep] at h1
        | some q' =>
          simp [hstep] at h1
          omega
    exact ⟨hst, by omega, by omega⟩

/-- Unfolding: past the end of the input, `find_all_matches` stops. -/
theorem findAllFrom_stop (d : Dfa) (s : Str) (pos : Nat)
    (h : ¬ pos < s.length) : findAllFrom d s pos = [] := by
  rw [findAllFrom]
  simp [h]

/-- Resumption (the heart of claim C3): after emitting the span
`(st, e)` the search continues at `e + 1`. -/
theorem findAllFrom_cons (d : Dfa) (s : Str) (pos st e : Nat)
    (hlt : pos < s.length)
    (h : matchLoop d (s.drop pos) 0 pos none none = (some st, some e)) :
    findAllFrom d s pos = (st, e) :: findAllFrom d s (e + 1) := by
  rw [findAllFrom]
  simp only [hlt, dite_true]
  split
  · rename_i st' e' hm
    rw [h] at hm
    obtain ⟨h1, h2⟩ := Prod.mk.injEq _ _ _ _ ▸ hm
    rw [Option.some_inj.mp h1, Option.some_inj.mp h2]
  · rename_i hne
    exact absurd h (by intro hcon; exact hne st e hcon)

/-- If the scan at `pos` records no end, the search moves to `pos + 1`. -/
theorem findAllFrom_skip (d : Dfa) (s : Str) (pos : Nat)
    (hlt : pos < s.length)
    (h2 : (matchLoop d (s.drop pos) 0 pos none none).2 = none) :
    findAllFrom d s pos = findAllFrom d s (pos + 1) := by
  rw [findAllFrom]
  simp only [hlt, dite_true]
  cases hfst : (matchLoop d (s.drop pos) 0 pos none none).1 with
  | none =>
    have heq : matchLoop d (s.drop pos) 0 pos none none = (none, none) := by
      rw [Prod.ext_iff]; exact ⟨hfst, h2⟩
    rw [heq]
  | some a =>
    have heq : matchLoop d (s.drop pos) 0 pos none none = (some a, none) := by
      rw [Prod.ext_iff]; exact ⟨hfst, h2⟩
    rw [heq]

/-- Every span listed by `findAllFrom` starts at or after `pos` and lies
within the input. -/
theorem findAllFrom_mem (d : Dfa) (s : Str) :
    ∀ (n pos : Nat), s.length - pos ≤ n →
      ∀ p ∈ findAllFrom d s pos, pos ≤ p.1 ∧ p.1 ≤ p.2 ∧ p.2 < s.length := by
  intro n
  induction n with
  | zero =>
    intro pos hpos p hp
    rw [findAllFrom_stop d s pos (by omega)] at hp
    exact absurd hp (by simp)
  | succ n ih =>
    intro pos hpos p hp
    by_cases hlt : pos < s.length
    · cases hsnd : (matchLoop d (s.drop pos) 0 pos none none).2 with
      | none =>
        rw [findAllFrom_skip d s pos hlt hsnd] at hp
        have := ih (pos + 1) (by omega) p hp
        exact ⟨by omega, this.2.1, this.2.2⟩
      | some e =>
        cases hfst : (matchLoop d (s.drop pos) 0 pos none none).1 with
        | none =>
          exfalso
          rw [matchLoop_snd_eq] at hsnd
          cases hga : greatestAccept d 0 (s.drop pos) with
          | none => rw [hga] at hsnd; exact absurd hsnd (by simp)
          | some k =>
            rw [matchLoop_fst_eq] at hfst
            cases hcs : s.drop pos with
            | nil => rw [hcs] at hga; simp [greatestAccept] at hga
            | cons c rest =>
              rw [hcs] at hfst hga
              cases hstep : d.step 0 c with
              | none => rw [gA_cons_none hstep] at hga; exact absurd hga (by simp)
              | some q' => simp [hstep] at hfst
        | some st =>
          have heq : matchLoop d (s.drop pos) 0 pos none none = (some st, some e) := by
            rw [Prod.ext_iff]; exact ⟨hfst, hsnd⟩
          obtain ⟨hst, hpe, helen⟩ := matchLoop_result_of_some d s pos st e heq
          rw [findAllFrom_cons d s pos st e hlt heq] at hp
          rcases List.mem_cons.mp hp with hhead | htail
          · rw [hhead]
            exact ⟨by omega, by omega, helen⟩
          · have := ih (e + 1) (by omega) p htail
            exact ⟨by omega, this.2.1, this.2.2⟩
    · rw [findAllFrom_stop d s pos hlt] at hp
      exact absurd hp (by simp)

/-- The spans listed by `findAllFrom` are strictly ordered and pairwise
non-overlapping. -/
theorem findAllFrom_pairwise (d : Dfa) (s : Str) :
    ∀ (n pos : Nat), s.length - pos ≤ n →
      List.Pairwise (fun a b : Nat × Nat => a.1 < b.1 ∧ a.2 < b.1)
        (findAllFrom d s pos) := by
  intro n
  induction n with
  | zero =>
    intro pos hpos
    rw [findAllFrom_stop d s pos (by omega)]
    exact List.Pairwise.nil
  | succ n ih =>
    intro pos hpos
    by_cases hlt : pos < s.length
    · cases hsnd : (matchLoop d (s.drop pos) 0 pos none none).2 with
      | none =>
        rw [findAllFrom_skip d s pos hlt hsnd]
        exact ih (pos + 1) (by omega)
      | some e =>
        cases hfst : (matchLoop d (s.drop pos) 0 pos none none).1 with
        | none =>
          rw [matchLoop_snd_eq] at hsnd
          cases hga : greatestAccept d 0 (s.drop pos) with
          | none => rw [hga] at hsnd; exact absurd hsnd (by simp)
          | some k =>
            exfalso
            rw [matchLoop_fst_eq] at hfst
            cases hcs : s.drop pos with
            | nil => rw [hcs] at hga; simp [greatestAccept] at hga
            | cons c rest =>
              rw [hcs] at hfst hga
              cases hstep : d.step 0 c with
              | none => rw [gA_cons_none hstep] at hga; exact absurd hga (by simp)
              | some q' => simp [hstep] at hfst
        | some st =>
          have heq : matchLoop d (s.drop pos) 0 pos none none = (some st, some e) := by
            rw [Prod.ext_iff]; exact ⟨hfst, hsnd⟩
          obtain ⟨hst, hpe, _⟩ := matchLoop_result_of_some d s pos st e heq
          rw [findAllFrom_cons d s pos st e hlt heq]
          refine List.Pairwise.cons ?_ (ih (e + 1) (by omega))
          intro b hb
          have := findAllFrom_mem d s (s.length - (e + 1)) (e + 1) (by omega) b hb
          constructor <;> omega
    · rw [findAllFrom_stop d s pos hlt]
      exact List.Pairwise.nil

/-- Claim C3 (confirmed): `find_all_matches` emits its spans in strictly
ascending start order, pairwise non-overlapping; after emitting the span
`(i, j)` the search resumes at `j + 1`; and the returned substrings are
exactly the slices of those spans. -/
theorem find_all_matches_ordered_nonoverlapping (d : Dfa) (s : Str) :
    (∀ p ∈ findAllFrom d s 0, p.1 ≤ p.2 ∧ p.2 < s.length) ∧
    List.Pairwise (fun a b : Nat × Nat => a.1 < b.1 ∧ a.2 < b.1)
      (findAllFrom d s 0) ∧
    (∀ pos st e, pos < s.length →
      matchLoop d (s.drop pos) 0 pos none none = (some st, some e) →
      findAllFrom d s pos = (st, e) :: findAllFrom d s (e + 1)) ∧
    find_all_matches d s = (findAllFrom d s 0).map (fun p => slice s p.1 p.2) := by
  refine ⟨?_, ?_, ?_, rfl⟩
  · intro p hp
    have := findAllFrom_mem d s s.length 0 (by omega) p hp
    exact ⟨this.2.1, this.2.2⟩
  · exact findAllFrom_pairwise d s s.length 0 (by omega)
  · intro pos st e hlt h
    exact findAllFrom_cons d s pos st e hlt h

/-- A slice with a well-formed span is non-empty. -/
theorem slice_ne_nil {s : Str} {i j : Nat} (hij : i ≤ j) (hj : j < s.length) :
    slice s i j ≠ [] := by
  have hlen : 0 < (slice s i j).length := by
    unfold slice
    rw [List.length_take, List.length_drop]
    omega
  exact List.ne_nil_of_length_pos hlen

/-- Claim C10 (confirmed): on empty input both finders return their
negative result, and neither finder ever returns an empty substring — even
for DFAs whose language contains the empty string. -/
theorem finders_never_return_empty (d : Dfa) (s t : Str) :
    find_first_match d [] = none ∧
    find_all_matches d [] = [] ∧
    (find_first_match d s = some t → t ≠ []) ∧
    (t ∈ find_all_matches d s → t ≠ []) := by
  refine ⟨?_, ?_, ?_, ?_⟩
  · unfold find_first_match
    rw [findFrom]
    simp
  · unfold find_all_matches
    rw [findAllFrom_stop d [] 0 (by simp)]
    rfl
  · intro h
    obtain ⟨r, hr, ht⟩ := Option.map_eq_some'.mp h
    obtain ⟨_, ⟨hij, hjlen, _⟩, _, _⟩ :=
      (findFrom_spec d s s.length 0 (by omega) r).mp hr
    rw [← ht]
    exact slice_ne_nil hij hjlen
  · intro hmem
    unfold find_all_matches at hmem
    obtain ⟨p, hp, ht⟩ := List.mem_map.mp hmem
    obtain ⟨_, hij, hjlen⟩ := findAllFrom_mem d s s.length 0 (by omega) p hp
    rw [← ht]
    exact slice_ne_nil hij hjlen

/-! ## The validator characterisation (claim C5) -/

/-- Unfolding: the scan of the empty remainder. -/
theorem validLoop_nil (n : Nat) (lwq : Bool) : validLoop n lwq [] = (n == 0) := by
  conv_lhs => rw [validLoop.eq_def]

/-- Unfolding: the `(` arm. -/
theorem validLoop_lparen (n : Nat) (lwq : Bool) (rest : Str) :
    validLoop n lwq ('(' :: rest) = validLoop (n + 1) true rest := by
  conv_lhs => rw [validLoop.eq_def]
  simp

/-- Unfolding: the `)` arm. -/
theorem validLoop_rparen (n : Nat) (lwq : Bool) (rest : Str) :
    validLoop n lwq (')' :: rest) =
      if n = 0 then false else validLoop (n - 1) false rest := by
  conv_lhs => rw [validLoop.eq_def]
  simp

/-- Unfolding: the quantifier arm. -/
theorem validLoop_quant (n : Nat) (lwq : Bool) (c : Char) (rest : Str)
    (hc : c = '*' ∨ c = '+') :
    validLoop n lwq (c :: rest) =
      if lwq then false else validLoop n true rest := by
  conv_lhs => rw [validLoop.eq_def]
  rcases hc with rfl | rfl <;> simp

/-- Unfolding: a trailing backslash is rejected. -/
theorem validLoop_backslash_nil (n : Nat) (lwq : Bool) :
    validLoop n lwq ['\\'] = false := by
  conv_lhs => rw [validLoop.eq_def]
  simp

/-- Unfolding: the escape arm consumes the escaped character. -/
theorem validLoop_backslash_cons (n : Nat) (lwq : Bool) (e : Char) (rest : Str) :
    validLoop n lwq ('\\' :: e :: rest) = validLoop n false rest := by
  conv_lhs => rw [validLoop.eq_def]
  simp

/-- Unfolding: the catch-all arm (`|` and every other literal). -/
theorem validLoop_other (n : Nat) (lwq : Bool) (c : Char) (rest : Str)
    (h1 : ¬ c = '(') (h2 : ¬ c = ')') (h3 : ¬ (c = '*' ∨ c = '+'))
    (h5 : ¬ c = '\\') :
    validLoop n lwq (c :: rest) = validLoop n false rest := by
  conv_lhs => rw [validLoop.eq_def]
  simp [h1, h2, h3, h5]

/-- Unfolding: tokenizing the empty pattern. -/
theorem tokenize_nil : tokenize [] = some [] := rfl

/-- Tokenizing a cons that is not an escape. -/
theorem tokenize_cons {c : Char} (rest : Str) (hc : ¬ c = '\\') :
    tokenize (c :: rest) = (tokenize rest).map (tokOf c :: ·) := by
  conv_lhs => rw [tokenize.eq_def]
  simp [hc]

/-- Unfolding: a dangling escape does not tokenize. -/
theorem tokenize_backslash_nil : tokenize ['\\'] = none := by
  conv_lhs => rw [tokenize.eq_def]
  simp

/-- Unfolding: an escape consumes the next character into one token. -/
theorem tokenize_backslash_cons (e : Char) (rest : Str) :
    tokenize ('\\' :: e :: rest) = (tokenize rest).map (Tok.esc e :: ·) := by
  conv_lhs => rw [tokenize.eq_def]
  simp

/-- Shifting the head token out of the existential. -/
theorem exists_tok_cons (t : Tok) (rest : Str) (B Q : List Tok → Prop) :
    (∃ toks, (tokenize rest).map (t :: ·) = some toks ∧ B toks ∧ Q toks) ↔
      ∃ toks', tokenize rest = some toks' ∧ B (t :: toks') ∧ Q (t :: toks') := by
  constructor
  · rintro ⟨toks, htk, hb, hq⟩
    rcases Option.map_eq_some'.mp htk with ⟨toks', htk', rfl⟩
    exact ⟨toks', htk', hb, hq⟩
  · rintro ⟨toks', htk', hb, hq⟩
    exact ⟨t :: toks', by rw [htk']; rfl, hb, hq⟩

/-- The scanner `validLoop` agrees with the declarative token conditions. -/
theorem validLoop_iff (N : Nat) :
    ∀ (cs : Str), cs.length ≤ N → ∀ (n : Nat) (lwq : Bool),
      validLoop n lwq cs = true ↔
        ∃ toks, tokenize cs = some toks ∧ balancedFrom n toks = true ∧
          quantChain lwq toks := by
  induction N with
  | zero =>
    intro cs hlen n lwq
    have hnil : cs = [] := List.length_eq_zero.mp (by omega)
    subst hnil
    rw [validLoop_nil, tokenize_nil]
    simp [balancedFrom, quantChain]
  | succ N ihN =>
    intro cs hlen n lwq
    cases cs with
    | nil =>
      rw [validLoop_nil, tokenize_nil]
      simp [balancedFrom, quantChain]
    | cons c rest =>
      have hrest : rest.length ≤ N := by
        simp only [List.length_cons] at hlen; omega
      by_cases hc1 : c = '('
      · subst hc1
        rw [validLoop_lparen, ihN rest hrest (n + 1) true,
          tokenize_cons rest (by decide),
          show tokOf '(' = Tok.lparen from by decide, exists_tok_cons]
        exact exists_congr fun toks' => by
          simp [balancedFrom, quantChain, isQuant, nextLwq]
      · by_cases hc2 : c = ')'
        · subst hc2
          rw [validLoop_rparen, tokenize_cons rest (by decide),
            show tokOf ')' = Tok.rparen from by decide, exists_tok_cons]
          by_cases hn : n = 0
          · subst hn
            simp [balancedFrom]
          · rw [if_neg hn, ihN rest hrest (n - 1) false]
            exact exists_congr fun toks' => by
              simp [balancedFrom, quantChain, isQuant, nextLwq,
                Nat.pos_of_ne_zero hn]
        · by_cases hc3 : c = '*' ∨ c = '+'
          · have hcb : ¬ c = '\\' := by
              rcases hc3 with h | h <;> subst h <;> decide
            rw [validLoop_quant n lwq c rest hc3, tokenize_cons rest hcb,
              show tokOf c = Tok.quant c from by
                simp only [tokOf, if_neg hc1, if_neg hc2, if_pos hc3],
              exists_tok_cons]
            cases lwq with
            | true =>
              rw [if_pos rfl]
              constructor
              · intro h; exact absurd h (by simp)
              · rintro ⟨toks', _, _, hqc, _⟩
                exact absurd (hqc rfl) (by simp)
            | false =>
              rw [if_neg (by simp)]
              rw [ihN rest hrest n true]
              exact exists_congr fun toks' => by
                simp [balancedFrom, quantChain, isQuant, nextLwq]
          · by_cases hc5 : c = '\\'
            · subst hc5
              cases rest with
              | nil =>
                rw [validLoop_backslash_nil, tokenize_backslash_nil]
                simp
              | cons e rest' =>
                rw [validLoop_backslash_cons, tokenize_backslash_cons,
                  exists_tok_cons (Tok.esc e) rest'
                    (fun toks => balancedFrom n toks = true) (quantChain lwq),
                  ihN rest' (by simp only [List.length_cons] at hlen; omega) n false]
                exact exists_congr fun toks' => by
                  simp [balancedFrom, quantChain, isQuant, nextLwq]
            · rw [validLoop_other n lwq c rest hc1 hc2 hc3 hc5,
                tokenize_cons rest hc5,
                show tokOf c = Tok.lit c from by
                  simp only [tokOf, if_neg hc1, if_neg hc2, if_neg hc3],
                exists_tok_cons, ihN rest hrest n false]
              exact exists_congr fun toks' => by
                simp [balancedFrom, quantChain, isQuant, nextLwq]

/-- `nextLwq prev` is false exactly when `prev` is an atom (not `(` and
not a quantifier). -/
theorem nextLwq_false_iff (prev : Tok) :
    nextLwq prev = false ↔ prev ≠ Tok.lparen ∧ isQuant prev = false := by
  cases prev <;> simp [nextLwq, isQuant]

/-- The scanner-style chain with the previous token's flag agrees with the
pairwise condition. -/
theorem quantChain_pairs (rest : List Tok) :
    ∀ (prev : Tok), quantChain (nextLwq prev) rest ↔ quantPairsOk prev rest := by
  induction rest with
  | nil => intro prev; simp [quantChain, quantPairsOk]
  | cons t rest' ih =>
    intro prev
    simp only [quantChain, quantPairsOk]
    constructor
    · rintro ⟨h1, h2⟩
      exact ⟨fun hq => (nextLwq_false_iff prev).mp (h1 hq), (ih t).mp h2⟩
    · rintro ⟨h1, h2⟩
      exact ⟨fun hq => (nextLwq_false_iff prev).mpr (h1 hq), (ih t).mpr h2⟩

/-- Starting flag `true` corresponds to "no quantifier may come first". -/
theorem quantChain_true_iff (toks : List Tok) :
    quantChain true toks ↔ quantPositionsOk toks := by
  cases toks with
  | nil => simp [quantChain, quantPositionsOk]
  | cons t rest =>
    simp only [quantChain, quantPositionsOk]
    constructor
    · rintro ⟨h1, h2⟩
      refine ⟨?_, (quantChain_pairs rest t).mp h2⟩
      cases hq : isQuant t with
      | true => exact absurd (h1 hq) (by simp)
      | false => rfl
    · rintro ⟨h1, h2⟩
      exact ⟨fun hq => absurd hq (by simp [h1]), (quantChain_pairs rest t).mpr h2⟩

/-- Claim C5 as amended (the `|` clauses removed): the validator accepts a
pattern exactly when it is non-empty, tokenizes without a dangling escape,
has balanced parentheses, and places every quantifier after an atom (a
literal — `|` included — an escape, or `)`), never first, never after `(`,
never after another quantifier. -/
theorem is_valid_regex_characterisation (r : Str) :
    is_valid_regex r = true ↔ validSpec r := by
  unfold is_valid_regex validSpec
  by_cases hr : r = []
  · simp [hr]
  · rw [if_neg hr]
    rw [validLoop_iff r.length r (Nat.le_refl _) 0 true]
    constructor
    · rintro ⟨toks, htk, hbal, hqc⟩
      exact ⟨hr, toks, htk, hbal, (quantChain_true_iff toks).mp hqc⟩
    · rintro ⟨_, toks, htk, hbal, hpos⟩
      exact ⟨toks, htk, hbal, (quantChain_true_iff toks).mpr hpos⟩

/-- Witness for C5: the pattern `(a|b)*` satisfies the declarative
contract, obtained through the characterisation at a concrete input. -/
theorem is_valid_regex_characterisation_witness :
    validSpec ['(', 'a', '|', 'b', ')', '*'] :=
  (is_valid_regex_characterisation ['(', 'a', '|', 'b', ')', '*']).mp (by decide)

/-! ## The desugarer's `+` rewrite (claim C6) -/

/-- `normLoop` splits over list append. -/
theorem normLoop_append (xs ys : Str) :
    ∀ (st : NormState),
      normLoop st (xs ++ ys) =
        (normLoop st xs).bind fun st' => normLoop st' ys := by
  induction xs with
  | nil => intro st; rfl
  | cons c rest ih =>
    intro st
    rw [List.cons_append]
    rw [show ∀ zs, normLoop st (c :: zs) =
        (match normStep st c with
         | some st' => normLoop st' zs
         | none => none) from fun zs => rfl]
    rw [show normLoop st (c :: rest) =
        (match normStep st c with
         | some st' => normLoop st' rest
         | none => none) from rfl]
    cases h : normStep st c with
    | some st' => exact ih st'
    | none => rfl

/-- Claim C6 as amended: when the desugarer meets `+` (outside an escape),
it duplicates the full back-scanned group if the previous character is
`)`, and otherwise exactly the single previous character — so the
backslash of an escaped atom is not duplicated. -/
theorem normalise_plus_amended (p : Str) (st : NormState)
    (h : normLoop { out := [], escape := false, prev := Char.ofNat 0 } p = some st)
    (hesc : st.escape = false) :
    normalise_regex (p ++ ['+']) =
      some (st.out ++
        (if st.prev = ')'
         then st.out.drop (groupStartLoop st.out st.out.length 0)
         else [st.prev]) ++ ['*']) := by
  unfold normalise_regex
  rw [normLoop_append, h]
  rw [show ((some st).bind fun st' => normLoop st' ['+']) = normLoop st ['+']
    from rfl]
  rw [show normLoop st ['+'] =
      (match normStep st '+' with
       | some st' => normLoop st' []
       | none => none) from rfl]
  rw [show normStep st '+' =
      (if st.prev = ')' then
        some { out := st.out ++ st.out.drop (groupStartLoop st.out st.out.length 0)
                        ++ ['*'],
               escape := false, prev := '*' }
       else
        some { out := st.out ++ [st.prev, '*'], escape := false, prev := '*' })
    from by
      unfold normStep
      rw [if_neg (by rw [hesc]; simp)]
      rw [if_neg (by decide), if_pos rfl]]
  by_cases hp : st.prev = ')'
  · rw [if_pos hp, if_pos hp]
    simp [normLoop]
  · rw [if_neg hp, if_neg hp]
    simp [normLoop]

/-- Witness for C6: instantiating the amended rewrite at `\c+` yields
`\cc*`. -/
theorem normalise_plus_amended_witness :
    normalise_regex ['\\', 'c', '+'] = some ['\\', 'c', 'c', '*'] := by
  have h := normalise_plus_amended ['\\', 'c']
    { out := ['\\', 'c'], escape := false, prev := 'c' } (by decide) rfl
  rw [show ((['\\', 'c'] : Str) ++ ['+']) = ['\\', 'c', '+'] from rfl] at h
  rw [h]
  decide

/-! ## Witnesses for the executor theorems -/

/-- Witness for C2: on the text `"ba"` the `a+`-DFA finds `"a"`, through
the leftmost-longest characterisation at the concrete span `(1, 1)`. -/
theorem find_first_match_leftmost_longest_witness :
    find_first_match demoDfa ['b', 'a'] = some ['a'] := by
  refine (find_first_match_leftmost_longest demoDfa ['b', 'a'] ['a']).mpr
    ⟨1, 1, ⟨by decide, by decide, by decide⟩, by decide, ?_, ?_⟩
  · rintro i' j' ⟨h1, h2, h3⟩
    by_contra hcon
    have hi' : i' = 0 := by omega
    subst hi'
    have h2' : j' < 2 := by simpa using h2
    interval_cases j'
    · exact absurd h3 (by decide)
    · exact absurd h3 (by decide)
  · rintro j' ⟨h1, h2, _⟩
    have h2' : j' < 2 := by simpa using h2
    omega

/-- Witness for C3: on the text `"aa"` the `a+`-DFA emits the span
`(0, 1)` and resumes at position 2, through the ordering theorem. -/
theorem find_all_ordered_witness :
    findAllFrom demoDfa ['a', 'a'] 0 = (0, 1) :: findAllFrom demoDfa ['a', 'a'] 2 :=
  (find_all_matches_ordered_nonoverlapping demoDfa ['a', 'a']).2.2.1 0 0 1
    (by decide) (by decide)

/-- Witness for C10: the match the `a+`-DFA finds in `"ba"` is non-empty,
through the no-empty-matches theorem at a concrete input. -/
theorem finders_never_return_empty_witness :
    (['a'] : Str) ≠ [] := by
  refine (finders_never_return_empty demoDfa ['b', 'a'] ['a']).2.2.1 ?_
  have h0 : findFrom demoDfa ['b', 'a'] 0 = findFrom demoDfa ['b', 'a'] 1 := by
    rw [findFrom]
    rw [dif_pos (by decide)]
    rw [show matchLoop demoDfa (List.drop 0 ['b', 'a']) 0 0 none none =
        (none, none) from by decide]
  have h1 : findFrom demoDfa ['b', 'a'] 1 = some (1, 1) := by
    rw [findFrom]
    rw [dif_pos (by decide)]
    rw [show matchLoop demoDfa (List.drop 1 ['b', 'a']) 0 1 none none =
        (some 1, some 1) from by decide]
  unfold find_first_match
  rw [h0, h1]
  rfl

end RegexEngine
